import Mathlib

/-!
Verification of the MCP Context Bridge System core: the expiring bounded
cache (src/smart-cache.ts) and the cached file store (src/context-manager.ts,
src/utils.ts).

The JavaScript Map is modelled as an association list in insertion order:
Map.set on a fresh key appends, Map.set on a present key overwrites in
place, Map.delete removes, and iteration visits entries in insertion order
(deleting the entry currently visited during iteration is safe and the
remaining entries are still visited, so the prune and invalidate loops are
list filters). Timestamps are integers; Date.now() is passed explicitly as
a parameter called now.
-/

/-- One cache entry: value, absolute expiry timestamp, last-access timestamp
(fields value, expiry, lastAccessed of CacheEntry in smart-cache.ts). -/
structure CacheEntry (T : Type) where
  value : T
  expiry : Int
  lastAccessed : Int
deriving Repr, DecidableEq

/-- The SmartCache state: the Map (as an association list in insertion
order), the maximum size, and the default TTL (fields cache, maxSize, ttl
of SmartCache in smart-cache.ts). -/
structure SmartCache (T : Type) where
  cache : List (String × CacheEntry T)
  maxSize : Nat
  ttl : Int

/-- Map.get: the first (and, when keys are unique, only) entry for the key. -/
def mapFind (l : List (String × CacheEntry T)) (key : String) :
    Option (String × CacheEntry T) :=
  l.find? (fun p => decide (p.1 = key))

/-- Map.has: raw key presence, no expiry logic. -/
def mapHas (l : List (String × CacheEntry T)) (key : String) : Bool :=
  l.any (fun p => decide (p.1 = key))

/-- Map.delete: removes the entry for the key. -/
def mapDelete (l : List (String × CacheEntry T)) (key : String) :
    List (String × CacheEntry T) :=
  l.filter (fun p => !decide (p.1 = key))

/-- Map.set: overwrites in place when the key is present, else appends. -/
def mapSet (l : List (String × CacheEntry T)) (key : String)
    (e : CacheEntry T) : List (String × CacheEntry T) :=
  if mapHas l key then
    l.map (fun p => if p.1 = key then (key, e) else p)
  else
    l ++ [(key, e)]

namespace SmartCache

/-- The constructor: an empty cache with the given maxSize and default ttl. -/
def init (T : Type) (maxSize : Nat) (ttl : Int) : SmartCache T :=
  ⟨[], maxSize, ttl⟩

/-- Well-formedness of the Map model: keys are pairwise distinct. This is
an invariant of the JavaScript Map that the association list must carry as
a side condition. -/
def wf (c : SmartCache T) : Prop :=
  (c.cache.map Prod.fst).Nodup

instance (c : SmartCache T) : Decidable c.wf := by
  unfold wf; infer_instance

/-- SmartCache.prune: removes every entry with expiry less than or equal to
now, returning the new state and the number removed (lines 144-156). -/
def prune (c : SmartCache T) (now : Int) : SmartCache T × Nat :=
  ({ c with cache := c.cache.filter (fun p => !decide (p.2.expiry ≤ now)) },
   (c.cache.filter (fun p => decide (p.2.expiry ≤ now))).length)

/-- The loop of SmartCache.evictLRU: scans the entries in iteration order
keeping the first entry seen whose lastAccessed is strictly smaller than
the best so far (lines 162-168). -/
def findOldest (acc : Option (String × Int)) :
    List (String × CacheEntry T) → Option (String × Int)
  | [] => acc
  | p :: ps =>
    match acc with
    | none => findOldest (some (p.1, p.2.lastAccessed)) ps
    | some (k, t) =>
      if p.2.lastAccessed < t then findOldest (some (p.1, p.2.lastAccessed)) ps
      else findOldest (some (k, t)) ps

/-- SmartCache.evictLRU: deletes the entry found by the scan, if any
(lines 161-173). -/
def evictLRU (c : SmartCache T) : SmartCache T :=
  match findOldest none c.cache with
  | none => c
  | some (k, _) => { c with cache := mapDelete c.cache k }

/-- SmartCache.set: prunes, computes the entry with ttl equal to customTTL
when supplied else the default, evicts the LRU entry when at or over
capacity and the key is fresh, then Map.set (lines 40-58). -/
def set (c : SmartCache T) (key : String) (value : T)
    (customTTL : Option Int) (now : Int) : SmartCache T :=
  let c1 := (c.prune now).1
  let t := customTTL.getD c.ttl
  let e : CacheEntry T := ⟨value, now + t, now⟩
  let c2 :=
    if c1.cache.length ≥ c1.maxSize ∧ mapHas c1.cache key = false then
      evictLRU c1
    else c1
  { c2 with cache := mapSet c2.cache key e }

/-- SmartCache.get: absent gives null; an expired entry is deleted and null
returned; otherwise lastAccessed is updated in place and the value returned
(lines 66-83). -/
def get (c : SmartCache T) (key : String) (now : Int) :
    SmartCache T × Option T :=
  match mapFind c.cache key with
  | none => (c, none)
  | some p =>
    if p.2.expiry ≤ now then
      ({ c with cache := mapDelete c.cache key }, none)
    else
      let touched := c.cache.map
        (fun q => if q.1 = key then (q.1, { q.2 with lastAccessed := now }) else q)
      ({ c with cache := touched }, some p.2.value)

/-- SmartCache.has: like the existence check of get but without the
lastAccessed update (lines 124-137). -/
def has (c : SmartCache T) (key : String) (now : Int) : SmartCache T × Bool :=
  match mapFind c.cache key with
  | none => (c, false)
  | some p =>
    if p.2.expiry ≤ now then
      ({ c with cache := mapDelete c.cache key }, false)
    else (c, true)

/-- SmartCache.invalidatePattern: deletes every key the pattern accepts and
returns how many were deleted (lines 91-102). The RegExp test is abstracted
as a Boolean predicate on keys. -/
def invalidatePattern (c : SmartCache T) (pat : String → Bool) :
    SmartCache T × Nat :=
  ({ c with cache := c.cache.filter (fun q => !(pat q.1)) },
   (c.cache.filter (fun q => pat q.1)).length)

/-- SmartCache.clear (lines 107-109). -/
def clear (c : SmartCache T) : SmartCache T :=
  { c with cache := [] }

/-- SmartCache.size (lines 114-116). -/
def size (c : SmartCache T) : Nat :=
  c.cache.length

end SmartCache

/-- One observable cache operation, for stating invariants over every
sequence of operations. -/
inductive Op (T : Type) where
  | set (key : String) (value : T) (customTTL : Option Int) (now : Int)
  | get (key : String) (now : Int)
  | has (key : String) (now : Int)
  | invalidate (pat : String → Bool)
  | clear

/-- The state transition of one operation. -/
def applyOp (c : SmartCache T) : Op T → SmartCache T
  | .set k v t n => c.set k v t n
  | .get k n => (c.get k n).1
  | .has k n => (c.has k n).1
  | .invalidate p => (c.invalidatePattern p).1
  | .clear => c.clear

/-- Runs a sequence of operations from a starting state. -/
def runOps (c : SmartCache T) (ops : List (Op T)) : SmartCache T :=
  ops.foldl applyOp c

/-- Models the JavaScript test RegExp("^" ++ pat ++ "$").test(key) on its
anchored pattern, for patterns whose only regex metacharacter is the dot:
the pattern characters must cover the whole key, a literal character
matches itself, and a dot matches any single character. This is exactly
what new RegExp with an unescaped interpolated file path produces in
the ContextManager write and append paths when the path contains no
metacharacter other than dots. -/
def dotTest : List Char → List Char → Bool
  | [], [] => true
  | pc :: ps, kc :: ks => (pc == '.' || pc == kc) && dotTest ps ks
  | _, _ => false

/-- The pattern built by ContextManager write and append:
new RegExp with the file path anchored at both ends (context-manager.ts
lines 256 and 264), as a key predicate. -/
def exactKeyPattern (fp : String) : String → Bool :=
  fun key => dotTest fp.toList key.toList

/-- Characters the unescaped interpolated RegExp treats as literals.
Every regex metacharacter other than the dot is excluded: for such
characters the real pattern diverges from dotTest (for example the
pattern built from a path containing a star matches repetitions rather
than the star itself, and some paths do not even construct a valid
RegExp). A path all of whose characters satisfy this predicate builds a
valid RegExp whose anchored test dotTest models exactly, so theorems
about the write and append invalidation restrict to such paths. -/
def regexSafeChar (ch : Char) : Bool :=
  !(ch == '\\' || ch == '^' || ch == '$' || ch == '*' || ch == '+'
    || ch == '?' || ch == '(' || ch == ')' || ch == '[' || ch == ']'
    || ch == '|' || ch == '\x7b' || ch == '\x7d')

/-- The portion of the file system state the cached store observes: file
contents by path, plus which write and append operations fail (the failure
modes of fs.promises as surfaced through utils.ts). A read fails exactly
when the file is absent. -/
structure FS where
  contents : String → Option String
  writeFails : String → Bool
  appendFails : String → Bool

/-- path.basename as used in the error messages of utils.ts. -/
def basename (fp : String) : String :=
  (fp.splitOn "/").getLastD fp

/-- utils.readFile: returns the content, or throws the wrapped error when
the underlying read fails (utils.ts lines 24-31). -/
def readFile (fs : FS) (fp : String) : Except String String :=
  match fs.contents fp with
  | some c => .ok c
  | none => .error ("Could not read file: " ++ basename fp)

/-- utils.writeFile: replaces the content, or throws the wrapped error
when the underlying write fails (utils.ts lines 39-47).  Directory
creation is invisible at this level. -/
def writeFile (fs : FS) (fp content : String) : Except String FS :=
  if fs.writeFails fp then
    .error ("Could not write to file: " ++ basename fp)
  else
    .ok { fs with
          contents := fun p => if p = fp then some content else fs.contents p }

/-- utils.appendFile: appends to the content, creating the file when
absent, or throws the wrapped error when the underlying append fails
(utils.ts lines 55-63). -/
def appendFile (fs : FS) (fp content : String) : Except String FS :=
  if fs.appendFails fp then
    .error ("Could not append to file: " ++ basename fp)
  else
    .ok { fs with
          contents := fun p =>
            if p = fp then some ((fs.contents fp).getD "" ++ content)
            else fs.contents p }

/-- The mutable state a ContextManager instance owns: its fileCache (a
SmartCache of strings) together with the file system it acts on. -/
structure CMState where
  fileCache : SmartCache String
  fs : FS

/-- ContextManager constructor state: new SmartCache of 50 entries with a
ten minute TTL in milliseconds (context-manager.ts line 19). -/
def cmInit (fs : FS) : CMState :=
  ⟨SmartCache.init String 50 (10 * 60 * 1000), fs⟩

/-- ContextManager private readFile: cache-first read.  On a cache hit the
value is returned with no file system access; on a miss the underlying
read runs and, on success only, the result is cached (context-manager.ts
lines 240-249).  The state is returned alongside the outcome because a
thrown error still leaves the mutated cache in place. -/
def cmReadFile (st : CMState) (fp : String) (now : Int) :
    CMState × Except String String :=
  let r := st.fileCache.get fp now
  match r.2 with
  | some cachedContent => ({ st with fileCache := r.1 }, .ok cachedContent)
  | none =>
    match readFile st.fs fp with
    | .error e => ({ st with fileCache := r.1 }, .error e)
    | .ok fileContent =>
      ({ fileCache := r.1.set fp fileContent none now, fs := st.fs },
       .ok fileContent)

/-- ContextManager private writeFile: performs the underlying write, then
invalidates the exact-path pattern (context-manager.ts lines 254-257).  On
a write failure the error propagates and the cache is untouched. -/
def cmWriteFile (st : CMState) (fp content : String) :
    CMState × Except String Unit :=
  match writeFile st.fs fp content with
  | .error e => (st, .error e)
  | .ok fs1 =>
    ({ fileCache := (st.fileCache.invalidatePattern (exactKeyPattern fp)).1,
       fs := fs1 },
     .ok ())

/-- ContextManager private appendFile: performs the underlying append,
then invalidates the exact-path pattern (context-manager.ts lines
262-265).  On an append failure the error propagates and the cache is
untouched. -/
def cmAppendFile (st : CMState) (fp content : String) :
    CMState × Except String Unit :=
  match appendFile st.fs fp content with
  | .error e => (st, .error e)
  | .ok fs1 =>
    ({ fileCache := (st.fileCache.invalidatePattern (exactKeyPattern fp)).1,
       fs := fs1 },
     .ok ())

section MapLemmas

variable {T : Type}

theorem mapFind_eq_none {l : List (String × CacheEntry T)} {key : String} :
    mapFind l key = none ↔ ∀ q ∈ l, q.1 ≠ key := by
  simp [mapFind, List.find?_eq_none]

theorem mapFind_mem {l : List (String × CacheEntry T)} {key : String}
    {p : String × CacheEntry T} (h : mapFind l key = some p) :
    p ∈ l ∧ p.1 = key := by
  refine ⟨List.mem_of_find?_eq_some h, ?_⟩
  have := List.find?_some h
  simpa using this

theorem mapHas_iff {l : List (String × CacheEntry T)} {key : String} :
    mapHas l key = true ↔ ∃ q ∈ l, q.1 = key := by
  simp [mapHas]

theorem mapHas_eq_false {l : List (String × CacheEntry T)} {key : String} :
    mapHas l key = false ↔ ∀ q ∈ l, q.1 ≠ key := by
  simp [mapHas]

theorem mapFind_nodup_mem {l : List (String × CacheEntry T)} {key : String}
    {e : CacheEntry T} (hnd : (l.map Prod.fst).Nodup) (hm : (key, e) ∈ l) :
    mapFind l key = some (key, e) := by
  induction l with
  | nil => cases hm
  | cons p ps ih =>
    simp only [List.map_cons, List.nodup_cons] at hnd
    rcases List.mem_cons.mp hm with h1 | h2
    · rw [← h1]
      simp [mapFind, List.find?]
    · have hne : ¬ (p.1 = key) := by
        intro hk
        apply hnd.1
        rw [hk]
        exact List.mem_map.mpr ⟨(key, e), h2, rfl⟩
      have hrec := ih hnd.2 h2
      simpa [mapFind, List.find?, hne] using hrec

theorem mem_mapDelete {l : List (String × CacheEntry T)} {key : String}
    {q : String × CacheEntry T} :
    q ∈ mapDelete l key ↔ q ∈ l ∧ q.1 ≠ key := by
  simp [mapDelete, List.mem_filter]

theorem mapHas_mapDelete (l : List (String × CacheEntry T)) (key : String) :
    mapHas (mapDelete l key) key = false := by
  rw [mapHas_eq_false]
  intro q hq
  exact (mem_mapDelete.mp hq).2

theorem mapDelete_length_lt {l : List (String × CacheEntry T)} {key : String}
    {e : CacheEntry T} (hm : (key, e) ∈ l) :
    (mapDelete l key).length < l.length := by
  apply List.length_filter_lt_length_iff_exists.mpr
  exact ⟨(key, e), hm, by simp⟩

theorem mapDelete_length_nodup {l : List (String × CacheEntry T)}
    {key : String} {e : CacheEntry T} (hnd : (l.map Prod.fst).Nodup)
    (hm : (key, e) ∈ l) :
    (mapDelete l key).length + 1 = l.length := by
  induction l with
  | nil => cases hm
  | cons p ps ih =>
    simp only [List.map_cons, List.nodup_cons] at hnd
    rcases List.mem_cons.mp hm with h1 | h2
    · have hkeyeq : p.1 = key := by rw [← h1]
      have hps : ps.filter (fun q => !decide (q.1 = key)) = ps := by
        apply List.filter_eq_self.mpr
        intro a ha
        have hane : ¬ (a.1 = key) := by
          intro hk
          apply hnd.1
          rw [hkeyeq, ← hk]
          exact List.mem_map.mpr ⟨a, ha, rfl⟩
        simp [hane]
      simp [mapDelete, List.filter_cons, hkeyeq, hps]
    · have hpne : ¬ (p.1 = key) := by
        intro hk
        apply hnd.1
        rw [hk]
        exact List.mem_map.mpr ⟨(key, e), h2, rfl⟩
      have ihh := ih hnd.2 h2
      simp only [mapDelete] at ihh
      simp [mapDelete, List.filter_cons, hpne]
      omega

theorem mem_mapSet {l : List (String × CacheEntry T)} {key : String}
    {e : CacheEntry T} {p : String × CacheEntry T} (h : p ∈ mapSet l key e) :
    p = (key, e) ∨ (p ∈ l ∧ p.1 ≠ key) := by
  by_cases hh : mapHas l key = true
  · simp only [mapSet, hh, if_true] at h
    rcases List.mem_map.mp h with ⟨q, hq, hqe⟩
    by_cases hq1 : q.1 = key
    · rw [if_pos hq1] at hqe
      exact Or.inl hqe.symm
    · rw [if_neg hq1] at hqe
      rw [← hqe]
      exact Or.inr ⟨hq, hq1⟩
  · rw [mapSet, if_neg (by simpa using hh)] at h
    rcases List.mem_append.mp h with h1 | h2
    · right
      refine ⟨h1, ?_⟩
      intro hk
      exact hh (mapHas_iff.mpr ⟨p, h1, hk⟩)
    · left
      simpa using h2

theorem mapFind_append_single (l : List (String × CacheEntry T)) (key : String)
    (e : CacheEntry T) (h : ∀ q ∈ l, ¬ (q.1 = key)) :
    mapFind (l ++ [(key, e)]) key = some (key, e) := by
  induction l with
  | nil => simp [mapFind, List.find?]
  | cons p ps ih =>
    have hp : ¬ (p.1 = key) := h p (List.mem_cons_self p ps)
    have hrec := ih (fun q hq => h q (List.mem_cons_of_mem p hq))
    simpa [mapFind, List.find?, hp] using hrec

theorem mapFind_overwrite (l : List (String × CacheEntry T)) (key : String)
    (e : CacheEntry T) (hh : mapHas l key = true) :
    mapFind (l.map (fun p => if p.1 = key then (key, e) else p)) key
      = some (key, e) := by
  induction l with
  | nil => simp [mapHas] at hh
  | cons p ps ih =>
    by_cases hp : p.1 = key
    · simp [mapFind, List.find?, hp]
    · have hh2 : mapHas ps key = true := by
        rcases mapHas_iff.mp hh with ⟨q, hq, hqk⟩
        rcases List.mem_cons.mp hq with h1 | h2
        · exact absurd (h1 ▸ hqk) hp
        · exact mapHas_iff.mpr ⟨q, h2, hqk⟩
      have hrec := ih hh2
      simpa [mapFind, List.find?, hp] using hrec

theorem mapFind_mapSet_self (l : List (String × CacheEntry T)) (key : String)
    (e : CacheEntry T) :
    mapFind (mapSet l key e) key = some (key, e) := by
  by_cases hh : mapHas l key = true
  · rw [mapSet, if_pos hh]
    exact mapFind_overwrite l key e hh
  · rw [mapSet, if_neg (by simpa using hh)]
    apply mapFind_append_single
    intro q hq hk
    exact hh (mapHas_iff.mpr ⟨q, hq, hk⟩)

theorem mapSet_length_has {l : List (String × CacheEntry T)} {key : String}
    (e : CacheEntry T) (hh : mapHas l key = true) :
    (mapSet l key e).length = l.length := by
  simp [mapSet, hh]

theorem mapSet_length_fresh {l : List (String × CacheEntry T)} {key : String}
    (e : CacheEntry T) (hh : mapHas l key = false) :
    (mapSet l key e).length = l.length + 1 := by
  simp [mapSet, hh]

theorem nodup_filter_keys {l : List (String × CacheEntry T)}
    (hnd : (l.map Prod.fst).Nodup) (f : String × CacheEntry T → Bool) :
    ((l.filter f).map Prod.fst).Nodup :=
  hnd.sublist ((List.filter_sublist l).map Prod.fst)

end MapLemmas

section FindOldestLemmas

variable {T : Type}

theorem findOldest_spec_aux (l : List (String × CacheEntry T)) :
    ∀ (acc : Option (String × Int)) (k : String) (t : Int),
      SmartCache.findOldest acc l = some (k, t) →
      (acc = some (k, t) ∨ ∃ e, (k, e) ∈ l ∧ e.lastAccessed = t)
      ∧ (∀ q ∈ l, t ≤ q.2.lastAccessed)
      ∧ (∀ k0 t0, acc = some (k0, t0) → t ≤ t0) := by
  induction l with
  | nil =>
    intro acc k t h
    simp only [SmartCache.findOldest] at h
    refine ⟨Or.inl h, by simp, ?_⟩
    intro k0 t0 h0
    rw [h0] at h
    cases h
    exact le_refl t
  | cons p ps ih =>
    intro acc k t h
    cases acc with
    | none =>
      simp only [SmartCache.findOldest] at h
      obtain ⟨h1, h2, h3⟩ := ih (some (p.1, p.2.lastAccessed)) k t h
      have htp : t ≤ p.2.lastAccessed := h3 p.1 p.2.lastAccessed rfl
      refine ⟨?_, ?_, by intro k0 t0 h0; cases h0⟩
      · right
        rcases h1 with hacc | ⟨e, he, hel⟩
        · have hpair : (p.1, p.2.lastAccessed) = (k, t) := by
            injection hacc
          have hk1 : p.1 = k := congrArg Prod.fst hpair
          have ht1 : p.2.lastAccessed = t := congrArg Prod.snd hpair
          refine ⟨p.2, ?_, ht1⟩
          rw [← hk1]
          exact List.mem_cons_self p ps
        · exact ⟨e, List.mem_cons_of_mem p he, hel⟩
      · intro q hq
        rcases List.mem_cons.mp hq with h4 | h5
        · rw [h4]; exact htp
        · exact h2 q h5
    | some kt =>
      obtain ⟨k0, t0⟩ := kt
      simp only [SmartCache.findOldest] at h
      by_cases hlt : p.2.lastAccessed < t0
      · rw [if_pos hlt] at h
        obtain ⟨h1, h2, h3⟩ := ih (some (p.1, p.2.lastAccessed)) k t h
        have htp : t ≤ p.2.lastAccessed := h3 p.1 p.2.lastAccessed rfl
        refine ⟨?_, ?_, ?_⟩
        · right
          rcases h1 with hacc | ⟨e, he, hel⟩
          · have hpair : (p.1, p.2.lastAccessed) = (k, t) := by
              injection hacc
            have hk1 : p.1 = k := congrArg Prod.fst hpair
            have ht1 : p.2.lastAccessed = t := congrArg Prod.snd hpair
            refine ⟨p.2, ?_, ht1⟩
            rw [← hk1]
            exact List.mem_cons_self p ps
          · exact ⟨e, List.mem_cons_of_mem p he, hel⟩
        · intro q hq
          rcases List.mem_cons.mp hq with h4 | h5
          · rw [h4]; exact htp
          · exact h2 q h5
        · intro k1 t1 h0
          have hpair : (k0, t0) = (k1, t1) := by injection h0
          have ht1 : t0 = t1 := congrArg Prod.snd hpair
          rw [← ht1]
          exact le_trans htp (le_of_lt hlt)
      · rw [if_neg hlt] at h
        obtain ⟨h1, h2, h3⟩ := ih (some (k0, t0)) k t h
        have htt0 : t ≤ t0 := h3 k0 t0 rfl
        have ht0p : t0 ≤ p.2.lastAccessed := le_of_not_lt hlt
        refine ⟨?_, ?_, ?_⟩
        · rcases h1 with hacc | ⟨e, he, hel⟩
          · exact Or.inl hacc
          · exact Or.inr ⟨e, List.mem_cons_of_mem p he, hel⟩
        · intro q hq
          rcases List.mem_cons.mp hq with h4 | h5
          · rw [h4]; exact le_trans htt0 ht0p
          · exact h2 q h5
        · intro k1 t1 h0
          have hpair : (k0, t0) = (k1, t1) := by injection h0
          have ht1 : t0 = t1 := congrArg Prod.snd hpair
          rw [← ht1]
          exact htt0

theorem findOldest_min {l : List (String × CacheEntry T)} {k : String}
    {t : Int} (h : SmartCache.findOldest none l = some (k, t)) :
    (∃ e, (k, e) ∈ l ∧ e.lastAccessed = t)
      ∧ ∀ q ∈ l, t ≤ q.2.lastAccessed := by
  obtain ⟨h1, h2, _⟩ := findOldest_spec_aux l none k t h
  rcases h1 with hacc | hex
  · cases hacc
  · exact ⟨hex, h2⟩

theorem findOldest_some_acc (l : List (String × CacheEntry T)) :
    ∀ x, (SmartCache.findOldest (some x) l).isSome := by
  induction l with
  | nil =>
    intro x
    simp [SmartCache.findOldest]
  | cons p ps ih =>
    intro x
    obtain ⟨k0, t0⟩ := x
    simp only [SmartCache.findOldest]
    by_cases hlt : p.2.lastAccessed < t0
    · rw [if_pos hlt]; exact ih _
    · rw [if_neg hlt]; exact ih _

theorem findOldest_isSome_of_ne_nil {l : List (String × CacheEntry T)}
    (h : l ≠ []) : (SmartCache.findOldest none l).isSome := by
  cases l with
  | nil => exact absurd rfl h
  | cons p ps =>
    show (SmartCache.findOldest (some (p.1, p.2.lastAccessed)) ps).isSome
    exact findOldest_some_acc ps _

end FindOldestLemmas

namespace SmartCache

variable {T : Type}

theorem prune_maxSize (c : SmartCache T) (now : Int) :
    ((c.prune now).1).maxSize = c.maxSize := rfl

theorem mem_prune {c : SmartCache T} {now : Int} {q : String × CacheEntry T} :
    q ∈ ((c.prune now).1).cache ↔ q ∈ c.cache ∧ ¬ (q.2.expiry ≤ now) := by
  simp [prune, List.mem_filter]

theorem prune_size_le (c : SmartCache T) (now : Int) :
    ((c.prune now).1).size ≤ c.size := by
  simp only [prune, size]
  exact List.length_filter_le _ _

theorem evictLRU_maxSize (c : SmartCache T) :
    (evictLRU c).maxSize = c.maxSize := by
  unfold evictLRU
  cases h : findOldest none c.cache with
  | none => rfl
  | some kt =>
    obtain ⟨k, t⟩ := kt
    rfl

theorem set_maxSize (c : SmartCache T) (key : String) (v : T)
    (customTTL : Option Int) (now : Int) :
    (c.set key v customTTL now).maxSize = c.maxSize := by
  show (if _ ∧ _ then evictLRU (c.prune now).1 else (c.prune now).1).maxSize
        = c.maxSize
  split
  · rw [evictLRU_maxSize, prune_maxSize]
  · rw [prune_maxSize]

theorem set_size_le {c : SmartCache T} (hcap : 1 ≤ c.maxSize)
    (hsz : c.size ≤ c.maxSize) (key : String) (v : T)
    (customTTL : Option Int) (now : Int) :
    (c.set key v customTTL now).size ≤ c.maxSize := by
  have hsz1 : ((c.prune now).1).size ≤ c.maxSize :=
    le_trans (prune_size_le c now) hsz
  show (mapSet (if ((c.prune now).1).cache.length ≥ ((c.prune now).1).maxSize
        ∧ mapHas ((c.prune now).1).cache key = false
        then evictLRU (c.prune now).1 else (c.prune now).1).cache
        key ⟨v, now + customTTL.getD c.ttl, now⟩).length ≤ c.maxSize
  by_cases hcond : ((c.prune now).1).cache.length ≥ ((c.prune now).1).maxSize
      ∧ mapHas ((c.prune now).1).cache key = false
  · rw [if_pos hcond]
    have hne : ((c.prune now).1).cache ≠ [] := by
      intro hnil
      have : ((c.prune now).1).cache.length = 0 := by rw [hnil]; rfl
      have hge := hcond.1
      rw [prune_maxSize] at hge
      omega
    obtain ⟨kt, hkt⟩ := Option.isSome_iff_exists.mp
      (findOldest_isSome_of_ne_nil hne)
    obtain ⟨k0, t0⟩ := kt
    obtain ⟨⟨e0, he0, _⟩, _⟩ := findOldest_min hkt
    have hev : (evictLRU (c.prune now).1).cache
        = mapDelete ((c.prune now).1).cache k0 := by
      unfold evictLRU
      rw [hkt]
    have hlt : (mapDelete ((c.prune now).1).cache k0).length
        < ((c.prune now).1).cache.length := mapDelete_length_lt he0
    have hfresh : mapHas (evictLRU (c.prune now).1).cache key = false := by
      rw [hev, mapHas_eq_false]
      intro q hq hk
      have hq2 := (mem_mapDelete.mp hq).1
      have := hcond.2
      rw [mapHas_eq_false] at this
      exact this q hq2 hk
    rw [mapSet_length_fresh _ hfresh, hev]
    have : ((c.prune now).1).cache.length ≤ c.maxSize := hsz1
    omega
  · rw [if_neg hcond]
    by_cases hh : mapHas ((c.prune now).1).cache key = true
    · rw [mapSet_length_has _ hh]
      exact hsz1
    · have hhf : mapHas ((c.prune now).1).cache key = false := by
        simpa using hh
      have hlt : ¬ (((c.prune now).1).cache.length ≥ ((c.prune now).1).maxSize) := by
        intro hge
        exact hcond ⟨hge, hhf⟩
      rw [mapSet_length_fresh _ hhf]
      rw [prune_maxSize] at hlt
      omega

end SmartCache

namespace SmartCache

variable {T : Type}

theorem get_state_size_le (c : SmartCache T) (key : String) (now : Int) :
    ((c.get key now).1).size ≤ c.size := by
  unfold get
  cases hf : mapFind c.cache key with
  | none => exact le_refl _
  | some p =>
    dsimp only
    by_cases he : p.2.expiry ≤ now
    · rw [if_pos he]
      simp only [size, mapDelete]
      exact List.length_filter_le _ _
    · rw [if_neg he]
      simp [size]

theorem get_state_maxSize (c : SmartCache T) (key : String) (now : Int) :
    ((c.get key now).1).maxSize = c.maxSize := by
  unfold get
  cases hf : mapFind c.cache key with
  | none => rfl
  | some p =>
    dsimp only
    by_cases he : p.2.expiry ≤ now
    · rw [if_pos he]
    · rw [if_neg he]

theorem has_state_size_le (c : SmartCache T) (key : String) (now : Int) :
    ((c.has key now).1).size ≤ c.size := by
  unfold has
  cases hf : mapFind c.cache key with
  | none => exact le_refl _
  | some p =>
    dsimp only
    by_cases he : p.2.expiry ≤ now
    · rw [if_pos he]
      simp only [size, mapDelete]
      exact List.length_filter_le _ _
    · rw [if_neg he]

theorem has_state_maxSize (c : SmartCache T) (key : String) (now : Int) :
    ((c.has key now).1).maxSize = c.maxSize := by
  unfold has
  cases hf : mapFind c.cache key with
  | none => rfl
  | some p =>
    dsimp only
    by_cases he : p.2.expiry ≤ now
    · rw [if_pos he]
    · rw [if_neg he]

theorem invalidatePattern_state_size_le (c : SmartCache T)
    (pat : String → Bool) :
    ((c.invalidatePattern pat).1).size ≤ c.size := by
  simp only [invalidatePattern, size]
  exact List.length_filter_le _ _

end SmartCache

theorem applyOp_invariant {T : Type} {c : SmartCache T} {maxSize : Nat}
    (hcap : 1 ≤ maxSize) (hmax : c.maxSize = maxSize)
    (hsz : c.size ≤ maxSize) (op : Op T) :
    (applyOp c op).maxSize = maxSize ∧ (applyOp c op).size ≤ maxSize := by
  cases op with
  | set k v t n =>
    refine ⟨?_, ?_⟩
    · show (c.set k v t n).maxSize = maxSize
      rw [SmartCache.set_maxSize, hmax]
    · have h := SmartCache.set_size_le (c := c) (by rw [hmax]; exact hcap)
        (by rw [hmax]; exact hsz) k v t n
      rw [hmax] at h
      exact h
  | get k n =>
    refine ⟨?_, ?_⟩
    · show ((c.get k n).1).maxSize = maxSize
      rw [SmartCache.get_state_maxSize, hmax]
    · exact le_trans (SmartCache.get_state_size_le c k n) hsz
  | has k n =>
    refine ⟨?_, ?_⟩
    · show ((c.has k n).1).maxSize = maxSize
      rw [SmartCache.has_state_maxSize, hmax]
    · exact le_trans (SmartCache.has_state_size_le c k n) hsz
  | invalidate p =>
    refine ⟨hmax, ?_⟩
    exact le_trans (SmartCache.invalidatePattern_state_size_le c p) hsz
  | clear =>
    exact ⟨hmax, by simp [applyOp, SmartCache.clear, SmartCache.size]⟩

theorem runOps_invariant {T : Type} {maxSize : Nat} (hcap : 1 ≤ maxSize)
    (ops : List (Op T)) :
    ∀ c : SmartCache T, c.maxSize = maxSize → c.size ≤ maxSize →
      (runOps c ops).maxSize = maxSize ∧ (runOps c ops).size ≤ maxSize := by
  induction ops with
  | nil =>
    intro c h1 h2
    exact ⟨h1, h2⟩
  | cons op ops ih =>
    intro c h1 h2
    obtain ⟨g1, g2⟩ := applyOp_invariant hcap h1 h2 op
    exact ih _ g1 g2

/-- Concrete scenario from the spec: capacity 2, inserting a, b, c leaves
exactly two entries and the least recently accessed key a gone. -/
theorem specScenario_capacity_two :
    ((SmartCache.init Nat 2 1000).set "a" 1 none 0 |>.set "b" 2 none 0
      |>.set "c" 3 none 1).size = 2
    ∧ (((SmartCache.init Nat 2 1000).set "a" 1 none 0 |>.set "b" 2 none 0
      |>.set "c" 3 none 1).get "a" 5).2 = none := by
  constructor <;> decide

/-- Concrete scenario from the spec: TTL 100, reading x at time 150 gives
absent and size excludes x after the call. -/
theorem specScenario_ttl_expiry :
    (((SmartCache.init Nat 2 100).set "x" 7 none 0).get "x" 150).2 = none
    ∧ (((SmartCache.init Nat 2 100).set "x" 7 none 0).get "x" 150).1.size
        = 0 := by
  constructor <;> decide

/-- Sanity facts about the unescaped anchored pattern: a dot in the
pattern matches any character of the key, the pattern matches the key it
was built from, and length mismatches fail. -/
theorem dotTest_examples :
    dotTest "a.md".toList "aXmd".toList = true
    ∧ dotTest "a.md".toList "a.md".toList = true
    ∧ dotTest "a.md".toList "a.mdX".toList = false := by
  refine ⟨by decide, by decide, by decide⟩

/-- Claim C1, as stated, is false at capacity zero: the constructor accepts
maxSize 0, and set on an empty cache at capacity 0 evicts nothing (the
store is empty) yet still inserts, so the entry count 1 exceeds the
capacity 0 immediately after set returns. -/
theorem C1_counterexample :
    ¬ (((runOps (SmartCache.init Nat 0 1000) []).set "a" 1 none 0).size
        ≤ (SmartCache.init Nat 0 1000).maxSize) := by
  decide

/-- Claim C1 (amended: capacity at least 1): for every cache with capacity
at least one and any default TTL, and every sequence of operations starting
from the fresh cache, immediately after any set call returns the number of
entries in the store does not exceed the capacity. -/
theorem C1_set_size_bounded {T : Type} (maxSize : Nat) (ttl : Int)
    (hcap : 1 ≤ maxSize) (ops : List (Op T)) (key : String) (v : T)
    (customTTL : Option Int) (now : Int) :
    ((runOps (SmartCache.init T maxSize ttl) ops).set key v customTTL now).size
      ≤ maxSize := by
  obtain ⟨h1, h2⟩ := runOps_invariant hcap ops (SmartCache.init T maxSize ttl)
    rfl (by simp [SmartCache.init, SmartCache.size])
  have h3 := SmartCache.set_size_le
    (c := runOps (SmartCache.init T maxSize ttl) ops)
    (by rw [h1]; exact hcap) (by rw [h1]; exact h2) key v customTTL now
  rw [h1] at h3
  exact h3

/-- Witness for C1_set_size_bounded at a concrete run: capacity 1, one
prior set, then another set of a fresh key. -/
theorem C1_set_size_bounded_witness :
    1 ≤ 1 ∧
    ((runOps (SmartCache.init Nat 1 1000) [Op.set "a" 1 none 0]).set
        "b" 2 none 1).size ≤ 1 :=
  ⟨by decide,
   C1_set_size_bounded 1 1000 (by decide) [Op.set "a" 1 none 0] "b" 2 none 1⟩

theorem mapFind_some_mapHas {T : Type} {l : List (String × CacheEntry T)}
    {key : String} {p : String × CacheEntry T} (h : mapFind l key = some p) :
    mapHas l key = true :=
  mapHas_iff.mpr ⟨p, (mapFind_mem h).1, (mapFind_mem h).2⟩

theorem mem_evictLRU {T : Type} {c : SmartCache T} {q : String × CacheEntry T}
    (hq : q ∈ (SmartCache.evictLRU c).cache) : q ∈ c.cache := by
  unfold SmartCache.evictLRU at hq
  cases h : SmartCache.findOldest none c.cache with
  | none =>
    rw [h] at hq
    exact hq
  | some kt =>
    obtain ⟨k, t⟩ := kt
    rw [h] at hq
    dsimp only at hq
    exact (mem_mapDelete.mp hq).1

/-- Claim C3: for a key whose entry is expired at access time, get returns
absent, removes the entry, and the entry count decreases by exactly one,
so a subsequent size no longer counts it. -/
theorem C3_get_expired_removes {T : Type} (c : SmartCache T) (key : String)
    (e : CacheEntry T) (now : Int) (hwf : c.wf) (hm : (key, e) ∈ c.cache)
    (hex : e.expiry ≤ now) :
    (c.get key now).2 = none
    ∧ ((c.get key now).1).size + 1 = c.size
    ∧ mapHas ((c.get key now).1).cache key = false := by
  have hf : mapFind c.cache key = some (key, e) := mapFind_nodup_mem hwf hm
  unfold SmartCache.get
  rw [hf]
  dsimp only
  rw [if_pos hex]
  refine ⟨rfl, ?_, ?_⟩
  · exact mapDelete_length_nodup hwf hm
  · exact mapHas_mapDelete c.cache key

/-- Witness for C3_get_expired_removes: one entry, expired at access. -/
theorem C3_get_expired_removes_witness :
    ((⟨[("k", ⟨7, 5, 0⟩)], 10, 100⟩ : SmartCache Nat).get "k" 5).2 = none
    ∧ (((⟨[("k", ⟨7, 5, 0⟩)], 10, 100⟩ : SmartCache Nat).get "k" 5).1).size + 1
        = (⟨[("k", ⟨7, 5, 0⟩)], 10, 100⟩ : SmartCache Nat).size
    ∧ mapHas (((⟨[("k", ⟨7, 5, 0⟩)], 10, 100⟩ :
        SmartCache Nat).get "k" 5).1).cache "k" = false :=
  C3_get_expired_removes ⟨[("k", ⟨7, 5, 0⟩)], 10, 100⟩ "k" ⟨7, 5, 0⟩ 5
    (by decide) (by decide) (by decide)

/-- Claim C8: set prunes first, so immediately after set returns every
entry other than possibly the one just inserted is unexpired at the time
of the call. -/
theorem C8_set_sweeps_expired {T : Type} (c : SmartCache T) (key : String)
    (v : T) (customTTL : Option Int) (now : Int) (q : String × CacheEntry T)
    (hq : q ∈ (c.set key v customTTL now).cache) (hne : q.1 ≠ key) :
    now < q.2.expiry := by
  have hq1 : q ∈ mapSet
      (if ((c.prune now).1).cache.length ≥ ((c.prune now).1).maxSize
          ∧ mapHas ((c.prune now).1).cache key = false
        then SmartCache.evictLRU (c.prune now).1
        else (c.prune now).1).cache
      key ⟨v, now + customTTL.getD c.ttl, now⟩ := hq
  rcases mem_mapSet hq1 with heq | ⟨hmem, _⟩
  · exact absurd (congrArg Prod.fst heq) hne
  · have hmem1 : q ∈ ((c.prune now).1).cache := by
      by_cases hP : ((c.prune now).1).cache.length ≥ ((c.prune now).1).maxSize
          ∧ mapHas ((c.prune now).1).cache key = false
      · rw [if_pos hP] at hmem
        exact mem_evictLRU hmem
      · rw [if_neg hP] at hmem
        exact hmem
    have := (SmartCache.mem_prune.mp hmem1).2
    exact not_le.mp this

/-- Witness for C8_set_sweeps_expired: the surviving unexpired entry of a
cache that also held an expired entry at set time. -/
theorem C8_set_sweeps_expired_witness :
    (("b", (⟨1, 100, 0⟩ : CacheEntry Nat))
        ∈ ((⟨[("a", ⟨0, -5, 0⟩), ("b", ⟨1, 100, 0⟩)], 10, 50⟩ :
          SmartCache Nat).set "c" 2 none 0).cache)
    ∧ (0 : Int) < 100 :=
  ⟨by decide,
   C8_set_sweeps_expired ⟨[("a", ⟨0, -5, 0⟩), ("b", ⟨1, 100, 0⟩)], 10, 50⟩
     "c" 2 none 0 ("b", ⟨1, 100, 0⟩) (by decide) (by decide)⟩

/-- Claim C9: set with a nonpositive TTL override still inserts an entry,
already expired at insertion time, so every later get or has reports it
absent, yet the entry is present in the store and counted by size until
swept or accessed. -/
theorem C9_nonpositive_ttl_inserts_expired {T : Type} (c : SmartCache T)
    (key : String) (v : T) (t : Int) (now : Int) (ht : t ≤ 0) :
    mapFind (c.set key v (some t) now).cache key
        = some (key, ⟨v, now + t, now⟩)
    ∧ now + t ≤ now
    ∧ (∀ later : Int, now ≤ later →
        ((c.set key v (some t) now).get key later).2 = none
        ∧ ((c.set key v (some t) now).has key later).2 = false)
    ∧ mapHas (c.set key v (some t) now).cache key = true
    ∧ 1 ≤ (c.set key v (some t) now).size := by
  have hfind : mapFind (c.set key v (some t) now).cache key
      = some (key, ⟨v, now + t, now⟩) := mapFind_mapSet_self _ key _
  refine ⟨hfind, by omega, ?_, mapFind_some_mapHas hfind, ?_⟩
  · intro later hlater
    have hexp : now + t ≤ later := by omega
    constructor
    · unfold SmartCache.get
      rw [hfind]
      dsimp only
      rw [if_pos hexp]
    · unfold SmartCache.has
      rw [hfind]
      dsimp only
      rw [if_pos hexp]
  · have hmem := (mapFind_mem hfind).1
    have : (c.set key v (some t) now).cache ≠ [] := List.ne_nil_of_mem hmem
    have := List.length_pos.mpr this
    simpa [SmartCache.size] using this

/-- Witness for C9_nonpositive_ttl_inserts_expired: TTL override -5 at
time 0, observed at time 7. -/
theorem C9_nonpositive_ttl_witness :
    (((SmartCache.init Nat 10 100).set "k" 3 (some (-5)) 0).get "k" 7).2 = none
    ∧ (((SmartCache.init Nat 10 100).set "k" 3 (some (-5)) 0).has "k" 7).2
        = false
    ∧ mapHas ((SmartCache.init Nat 10 100).set "k" 3 (some (-5)) 0).cache "k"
        = true
    ∧ 1 ≤ ((SmartCache.init Nat 10 100).set "k" 3 (some (-5)) 0).size :=
  ⟨((C9_nonpositive_ttl_inserts_expired (SmartCache.init Nat 10 100) "k" 3
      (-5) 0 (by decide)).2.2.1 7 (by decide)).1,
   ((C9_nonpositive_ttl_inserts_expired (SmartCache.init Nat 10 100) "k" 3
      (-5) 0 (by decide)).2.2.1 7 (by decide)).2,
   (C9_nonpositive_ttl_inserts_expired (SmartCache.init Nat 10 100) "k" 3
      (-5) 0 (by decide)).2.2.2.1,
   (C9_nonpositive_ttl_inserts_expired (SmartCache.init Nat 10 100) "k" 3
      (-5) 0 (by decide)).2.2.2.2⟩

/-- Claim C4, as stated, is false at capacity zero: with maxSize 0 the
swept store holds exactly capacity entries (zero) and the key is fresh,
yet no entry is evicted (the store is empty, so there is no entry with
minimal lastAccessedAt to evict) and the insert still happens, growing the
store by one. -/
theorem C4_counterexample :
    (((SmartCache.init Nat 0 1000).prune 0).1).cache = []
    ∧ (((SmartCache.init Nat 0 1000).prune 0).1).size
        = (SmartCache.init Nat 0 1000).maxSize
    ∧ mapHas (((SmartCache.init Nat 0 1000).prune 0).1).cache "a" = false
    ∧ ((SmartCache.init Nat 0 1000).set "a" 1 none 0).size
        = (((SmartCache.init Nat 0 1000).prune 0).1).size + 1 := by
  decide

/-- Claim C4 (amended: capacity at least 1): when, after the expiry sweep,
the store holds exactly capacity entries, the capacity is at least one and
the key is not already present, exactly one entry is evicted before
insertion; it has the minimal lastAccessedAt among the swept entries, all
other entries are carried over unchanged and in order, and the new entry
is appended, keeping the store exactly at capacity. -/
theorem C4_evicts_lru {T : Type} (c : SmartCache T) (key : String) (v : T)
    (customTTL : Option Int) (now : Int) (hwf : c.wf)
    (hat : ((c.prune now).1).size = c.maxSize) (hcap : 1 ≤ c.maxSize)
    (hfresh : mapHas ((c.prune now).1).cache key = false) :
    ∃ ek : String, ∃ ee : CacheEntry T,
      (ek, ee) ∈ ((c.prune now).1).cache
      ∧ (∀ q ∈ ((c.prune now).1).cache, ee.lastAccessed ≤ q.2.lastAccessed)
      ∧ (c.set key v customTTL now).cache
          = mapDelete ((c.prune now).1).cache ek
            ++ [(key, ⟨v, now + customTTL.getD c.ttl, now⟩)]
      ∧ (c.set key v customTTL now).size = c.maxSize := by
  have hwf1 : ((((c.prune now).1).cache).map Prod.fst).Nodup :=
    nodup_filter_keys hwf _
  have hsz : ((c.prune now).1).cache.length = c.maxSize := hat
  have hne : ((c.prune now).1).cache ≠ [] := by
    intro hnil
    rw [hnil] at hsz
    simp at hsz
    omega
  obtain ⟨kt, hkt⟩ := Option.isSome_iff_exists.mp
    (findOldest_isSome_of_ne_nil hne)
  obtain ⟨k0, t0⟩ := kt
  obtain ⟨⟨e0, he0, hlast⟩, hmin⟩ := findOldest_min hkt
  have hcond : ((c.prune now).1).cache.length ≥ ((c.prune now).1).maxSize
      ∧ mapHas ((c.prune now).1).cache key = false := by
    refine ⟨?_, hfresh⟩
    rw [SmartCache.prune_maxSize]
    omega
  have hev : (SmartCache.evictLRU (c.prune now).1).cache
      = mapDelete ((c.prune now).1).cache k0 := by
    unfold SmartCache.evictLRU
    rw [hkt]
  have hfresh2 : mapHas (SmartCache.evictLRU (c.prune now).1).cache key
      = false := by
    rw [hev, mapHas_eq_false]
    intro q hq hk
    rw [mapHas_eq_false] at hfresh
    exact hfresh q (mem_mapDelete.mp hq).1 hk
  have hcache : (c.set key v customTTL now).cache
      = mapDelete ((c.prune now).1).cache k0
        ++ [(key, ⟨v, now + customTTL.getD c.ttl, now⟩)] := by
    show (mapSet (if ((c.prune now).1).cache.length ≥ ((c.prune now).1).maxSize
          ∧ mapHas ((c.prune now).1).cache key = false
        then SmartCache.evictLRU (c.prune now).1 else (c.prune now).1).cache
        key ⟨v, now + customTTL.getD c.ttl, now⟩) = _
    rw [if_pos hcond]
    simp only [mapSet]
    rw [if_neg (by simp [hfresh2])]
    rw [hev]
  refine ⟨k0, e0, he0, ?_, hcache, ?_⟩
  · intro q hq
    rw [hlast]
    exact hmin q hq
  · have hlen : (c.set key v customTTL now).size
        = (mapDelete ((c.prune now).1).cache k0).length + 1 := by
      simp [SmartCache.size, hcache]
    rw [hlen, mapDelete_length_nodup hwf1 he0]
    exact hat

/-- Witness for C4_evicts_lru: capacity 2, two unexpired entries, the
key b least recently accessed, inserting fresh key c. -/
theorem C4_evicts_lru_witness :
    ∃ ek : String, ∃ ee : CacheEntry Nat,
      (ek, ee) ∈ (((⟨[("a", ⟨0, 100, 5⟩), ("b", ⟨1, 100, 3⟩)], 2, 10⟩ :
          SmartCache Nat).prune 0).1).cache
      ∧ (∀ q ∈ (((⟨[("a", ⟨0, 100, 5⟩), ("b", ⟨1, 100, 3⟩)], 2, 10⟩ :
            SmartCache Nat).prune 0).1).cache,
          ee.lastAccessed ≤ q.2.lastAccessed)
      ∧ ((⟨[("a", ⟨0, 100, 5⟩), ("b", ⟨1, 100, 3⟩)], 2, 10⟩ :
            SmartCache Nat).set "c" 9 none 0).cache
          = mapDelete (((⟨[("a", ⟨0, 100, 5⟩), ("b", ⟨1, 100, 3⟩)], 2, 10⟩ :
              SmartCache Nat).prune 0).1).cache ek
            ++ [("c", ⟨9, 0 + Option.getD none 10, 0⟩)]
      ∧ ((⟨[("a", ⟨0, 100, 5⟩), ("b", ⟨1, 100, 3⟩)], 2, 10⟩ :
            SmartCache Nat).set "c" 9 none 0).size
          = (⟨[("a", ⟨0, 100, 5⟩), ("b", ⟨1, 100, 3⟩)], 2, 10⟩ :
            SmartCache Nat).maxSize :=
  C4_evicts_lru ⟨[("a", ⟨0, 100, 5⟩), ("b", ⟨1, 100, 3⟩)], 2, 10⟩ "c" 9 none 0
    (by decide) (by decide) (by decide) (by decide)

/-- Claim C7: invalidatePattern removes exactly the matching entries (the
survivors are the non-matching entries, unchanged and in order), returns
exactly the number of matching entries, returns 1 when exactly one entry
matches, and is the identity returning 0 when nothing matches. -/
theorem C7_invalidate_exact {T : Type} (c : SmartCache T)
    (pat : String → Bool) :
    ((c.invalidatePattern pat).1).cache
        = c.cache.filter (fun q => !(pat q.1))
    ∧ (c.invalidatePattern pat).2
        = (c.cache.filter (fun q => pat q.1)).length
    ∧ (∀ q ∈ c.cache, pat q.1 = false →
        q ∈ ((c.invalidatePattern pat).1).cache)
    ∧ (∀ q ∈ ((c.invalidatePattern pat).1).cache,
        q ∈ c.cache ∧ pat q.1 = false)
    ∧ ((c.cache.filter (fun q => pat q.1)).length = 1
        → (c.invalidatePattern pat).2 = 1)
    ∧ ((∀ q ∈ c.cache, pat q.1 = false)
        → (c.invalidatePattern pat).1 = c ∧ (c.invalidatePattern pat).2 = 0) := by
  refine ⟨rfl, rfl, ?_, ?_, ?_, ?_⟩
  · intro q hq hpq
    show q ∈ c.cache.filter (fun q => !(pat q.1))
    rw [List.mem_filter]
    exact ⟨hq, by simp [hpq]⟩
  · intro q hq
    have hq1 : q ∈ c.cache.filter (fun q => !(pat q.1)) := hq
    rw [List.mem_filter] at hq1
    exact ⟨hq1.1, by simpa using hq1.2⟩
  · intro h1
    show (c.cache.filter (fun q => pat q.1)).length = 1
    exact h1
  · intro hnone
    constructor
    · have hself : c.cache.filter (fun q => !(pat q.1)) = c.cache :=
        List.filter_eq_self.mpr (fun a ha => by simp [hnone a ha])
      show ({ c with cache := c.cache.filter (fun q => !(pat q.1)) } :
        SmartCache T) = c
      rw [hself]
    · show (c.cache.filter (fun q => pat q.1)).length = 0
      have hempty : c.cache.filter (fun q => pat q.1) = [] := by
        rw [List.filter_eq_nil_iff]
        intro a ha
        simp [hnone a ha]
      rw [hempty]
      rfl

/-- Witness for C7_invalidate_exact: two entries, pattern matching only
the key a. -/
theorem C7_invalidate_exact_witness :
    (((⟨[("a", ⟨1, 9, 0⟩), ("b", ⟨2, 9, 0⟩)], 5, 7⟩ :
        SmartCache Nat).invalidatePattern (fun k => k == "a")).1).cache
      = [("b", ⟨2, 9, 0⟩)]
    ∧ ((⟨[("a", ⟨1, 9, 0⟩), ("b", ⟨2, 9, 0⟩)], 5, 7⟩ :
        SmartCache Nat).invalidatePattern (fun k => k == "a")).2 = 1 :=
  ⟨by decide,
   (C7_invalidate_exact
      (⟨[("a", ⟨1, 9, 0⟩), ("b", ⟨2, 9, 0⟩)], 5, 7⟩ : SmartCache Nat)
      (fun k => k == "a")).2.2.2.2.1 (by decide)⟩

/-- Claim C10: invalidatePattern checks no expiry: an expired matching
entry is removed and counted (the count is the full number of matching
entries, so it is at least one here), even though has reports that same
key absent at the same moment. -/
theorem C10_invalidate_ignores_expiry {T : Type} (c : SmartCache T)
    (pat : String → Bool) (key : String) (e : CacheEntry T) (now : Int)
    (hwf : c.wf) (hm : (key, e) ∈ c.cache) (hp : pat key = true)
    (hex : e.expiry ≤ now) :
    (c.invalidatePattern pat).2
        = (c.cache.filter (fun q => pat q.1)).length
    ∧ 1 ≤ (c.invalidatePattern pat).2
    ∧ (key, e) ∉ ((c.invalidatePattern pat).1).cache
    ∧ (c.has key now).2 = false := by
  refine ⟨rfl, ?_, ?_, ?_⟩
  · show 1 ≤ (c.cache.filter (fun q => pat q.1)).length
    have hmem : (key, e) ∈ c.cache.filter (fun q => pat q.1) :=
      List.mem_filter.mpr ⟨hm, by simpa using hp⟩
    have := List.ne_nil_of_mem hmem
    exact List.length_pos.mpr this
  · intro hq
    have hq1 : (key, e) ∈ c.cache.filter (fun q => !(pat q.1)) := hq
    rw [List.mem_filter] at hq1
    simp [hp] at hq1
  · have hf : mapFind c.cache key = some (key, e) := mapFind_nodup_mem hwf hm
    unfold SmartCache.has
    rw [hf]
    dsimp only
    rw [if_pos hex]

/-- Witness for C10_invalidate_ignores_expiry: an expired entry matching
the pattern gets counted while has reports it absent. -/
theorem C10_invalidate_ignores_expiry_witness :
    1 ≤ ((⟨[("a", ⟨1, -3, 0⟩)], 5, 7⟩ :
        SmartCache Nat).invalidatePattern (fun _ => true)).2
    ∧ ((⟨[("a", ⟨1, -3, 0⟩)], 5, 7⟩ : SmartCache Nat).has "a" 0).2 = false :=
  ⟨(C10_invalidate_ignores_expiry
      (⟨[("a", ⟨1, -3, 0⟩)], 5, 7⟩ : SmartCache Nat) (fun _ => true) "a"
      ⟨1, -3, 0⟩ 0 (by decide) (by decide) (by decide) (by decide)).2.1,
   (C10_invalidate_ignores_expiry
      (⟨[("a", ⟨1, -3, 0⟩)], 5, 7⟩ : SmartCache Nat) (fun _ => true) "a"
      ⟨1, -3, 0⟩ 0 (by decide) (by decide) (by decide) (by decide)).2.2.2⟩

theorem get_state_ttl {T : Type} (c : SmartCache T) (key : String)
    (now : Int) : ((c.get key now).1).ttl = c.ttl := by
  unfold SmartCache.get
  cases hf : mapFind c.cache key with
  | none => rfl
  | some p =>
    dsimp only
    by_cases he : p.2.expiry ≤ now
    · rw [if_pos he]
    · rw [if_neg he]

theorem get_none_no_key {T : Type} {c : SmartCache T} {key : String}
    {now : Int} (h : (c.get key now).2 = none) :
    mapHas ((c.get key now).1).cache key = false := by
  unfold SmartCache.get at h ⊢
  cases hf : mapFind c.cache key with
  | none =>
    dsimp only
    rw [mapHas_eq_false]
    exact mapFind_eq_none.mp hf
  | some p =>
    rw [hf] at h
    dsimp only at h ⊢
    by_cases he : p.2.expiry ≤ now
    · rw [if_pos he]
      exact mapHas_mapDelete c.cache key
    · rw [if_neg he] at h
      simp at h

theorem dotTest_refl (l : List Char) : dotTest l l = true := by
  induction l with
  | nil => rfl
  | cons a as ih => simp [dotTest, ih]

theorem exactKeyPattern_self (fp : String) : exactKeyPattern fp fp = true :=
  dotTest_refl _

theorem mapFind_filter_none {T : Type} (l : List (String × CacheEntry T))
    (pat : String → Bool) (key : String) (hp : pat key = true) :
    mapFind (l.filter (fun q => !(pat q.1))) key = none := by
  rw [mapFind_eq_none]
  intro q hq hk
  have hq2 := (List.mem_filter.mp hq).2
  rw [hk, hp] at hq2
  simp at hq2

theorem cmReadFile_eq (st : CMState) (fp : String) (now : Int) :
    cmReadFile st fp now =
      match (st.fileCache.get fp now).2 with
      | some v => ({ st with fileCache := (st.fileCache.get fp now).1 },
          Except.ok v)
      | none =>
        match readFile st.fs fp with
        | .error e => ({ st with fileCache := (st.fileCache.get fp now).1 },
            Except.error e)
        | .ok content =>
          ({ fileCache := ((st.fileCache.get fp now).1).set fp content none now,
             fs := st.fs }, Except.ok content) := by
  unfold cmReadFile
  rfl

/-- Claim C5: when the underlying write (or append) fails, the error
propagates to the caller and the manager state, in particular the cache,
is exactly as before the call: no invalidation happens. -/
theorem C5_io_failure_preserves_cache (st : CMState) (fp content : String) :
    (st.fs.writeFails fp = true →
      cmWriteFile st fp content
        = (st, Except.error ("Could not write to file: " ++ basename fp)))
    ∧ (st.fs.appendFails fp = true →
      cmAppendFile st fp content
        = (st, Except.error ("Could not append to file: " ++ basename fp))) := by
  constructor
  · intro h
    unfold cmWriteFile writeFile
    rw [if_pos h]
  · intro h
    unfold cmAppendFile appendFile
    rw [if_pos h]

/-- Witness for C5_io_failure_preserves_cache: a state whose write and
append operations both fail on the path f. -/
theorem C5_io_failure_preserves_cache_witness :
    cmWriteFile
        ⟨⟨[("f", ⟨"A", 9, 0⟩)], 50, 600⟩,
         ⟨fun _ => some "A", fun _ => true, fun _ => true⟩⟩ "f" "B"
      = (⟨⟨[("f", ⟨"A", 9, 0⟩)], 50, 600⟩,
          ⟨fun _ => some "A", fun _ => true, fun _ => true⟩⟩,
         Except.error ("Could not write to file: " ++ basename "f"))
    ∧ cmAppendFile
        ⟨⟨[("f", ⟨"A", 9, 0⟩)], 50, 600⟩,
         ⟨fun _ => some "A", fun _ => true, fun _ => true⟩⟩ "f" "B"
      = (⟨⟨[("f", ⟨"A", 9, 0⟩)], 50, 600⟩,
          ⟨fun _ => some "A", fun _ => true, fun _ => true⟩⟩,
         Except.error ("Could not append to file: " ++ basename "f")) :=
  ⟨(C5_io_failure_preserves_cache
      ⟨⟨[("f", ⟨"A", 9, 0⟩)], 50, 600⟩,
       ⟨fun _ => some "A", fun _ => true, fun _ => true⟩⟩ "f" "B").1 rfl,
   (C5_io_failure_preserves_cache
      ⟨⟨[("f", ⟨"A", 9, 0⟩)], 50, 600⟩,
       ⟨fun _ => some "A", fun _ => true, fun _ => true⟩⟩ "f" "B").2 rfl⟩

/-- Claim C6: read on a present unexpired cache hit returns the cached
value for every underlying file system state (so no underlying read can
have been consulted); on a miss with a successful underlying read it
returns the content and caches it under the key with the default TTL; on
a miss with a failing underlying read it propagates the error unchanged
and inserts nothing for the key. -/
theorem C6_read_contract (st : CMState) (fp : String) (now : Int) :
    (∀ e : CacheEntry String, mapFind st.fileCache.cache fp = some (fp, e) →
      ¬ (e.expiry ≤ now) →
      ∀ g : FS, (cmReadFile ⟨st.fileCache, g⟩ fp now).2 = Except.ok e.value)
    ∧ (∀ content : String, (st.fileCache.get fp now).2 = none →
        st.fs.contents fp = some content →
        (cmReadFile st fp now).2 = Except.ok content
        ∧ mapFind ((cmReadFile st fp now).1).fileCache.cache fp
            = some (fp, ⟨content, now + st.fileCache.ttl, now⟩))
    ∧ ((st.fileCache.get fp now).2 = none → st.fs.contents fp = none →
        (cmReadFile st fp now).2
          = Except.error ("Could not read file: " ++ basename fp)
        ∧ mapHas ((cmReadFile st fp now).1).fileCache.cache fp = false) := by
  refine ⟨?_, ?_, ?_⟩
  · intro e hf hexp g
    have hget : (st.fileCache.get fp now).2 = some e.value := by
      unfold SmartCache.get
      rw [hf]
      dsimp only
      rw [if_neg hexp]
    rw [cmReadFile_eq]
    dsimp only
    rw [hget]
  · intro content hmiss hcont
    have hread : readFile st.fs fp = Except.ok content := by
      unfold readFile
      rw [hcont]
    have hstep : cmReadFile st fp now
        = ({ fileCache := ((st.fileCache.get fp now).1).set fp content none now,
             fs := st.fs }, Except.ok content) := by
      rw [cmReadFile_eq, hmiss]
      dsimp only
      rw [hread]
    refine ⟨by rw [hstep], ?_⟩
    rw [hstep]
    dsimp only
    have hf2 : mapFind
        (((st.fileCache.get fp now).1).set fp content none now).cache fp
        = some (fp, ⟨content, now + ((st.fileCache.get fp now).1).ttl, now⟩) :=
      mapFind_mapSet_self _ fp _
    rw [get_state_ttl] at hf2
    exact hf2
  · intro hmiss hcont
    have hread : readFile st.fs fp
        = Except.error ("Could not read file: " ++ basename fp) := by
      unfold readFile
      rw [hcont]
    have hstep : cmReadFile st fp now
        = ({ st with fileCache := (st.fileCache.get fp now).1 },
           Except.error ("Could not read file: " ++ basename fp)) := by
      rw [cmReadFile_eq, hmiss]
      dsimp only
      rw [hread]
    refine ⟨by rw [hstep], ?_⟩
    rw [hstep]
    dsimp only
    exact get_none_no_key hmiss

/-- Witness for C6_read_contract: a hit served with no file present
underneath, then a miss that caches, then a failing read. -/
theorem C6_read_contract_witness :
    (cmReadFile ⟨⟨[("f", ⟨"A", 9, 0⟩)], 50, 600⟩,
        ⟨fun _ => none, fun _ => false, fun _ => false⟩⟩ "f" 0).2
      = Except.ok "A"
    ∧ (cmReadFile ⟨⟨[], 50, 600⟩,
        ⟨fun p => if p = "g" then some "B" else none,
         fun _ => false, fun _ => false⟩⟩ "g" 0).2 = Except.ok "B"
    ∧ (cmReadFile ⟨⟨[], 50, 600⟩,
        ⟨fun _ => none, fun _ => false, fun _ => false⟩⟩ "h" 0).2
      = Except.error ("Could not read file: " ++ basename "h") :=
  ⟨(C6_read_contract
      ⟨⟨[("f", ⟨"A", 9, 0⟩)], 50, 600⟩,
       ⟨fun _ => none, fun _ => false, fun _ => false⟩⟩ "f" 0).1
      ⟨"A", 9, 0⟩ (by decide) (by decide) _,
   ((C6_read_contract
      ⟨⟨[], 50, 600⟩,
       ⟨fun p => if p = "g" then some "B" else none,
        fun _ => false, fun _ => false⟩⟩ "g" 0).2.1
      "B" (by decide) (by decide)).1,
   ((C6_read_contract
      ⟨⟨[], 50, 600⟩,
       ⟨fun _ => none, fun _ => false, fun _ => false⟩⟩ "h" 0).2.2
      (by decide) rfl).1⟩

/-- Claim C2, as stated, is false: the invalidation pattern is built by
interpolating the raw path into a regular expression without escaping, so
a dot in the written key acts as a wildcard.  Writing the key a.md also
removes the unrelated cached entry aXmd, which the claim says must be left
untouched. -/
theorem C2_counterexample :
    mapHas [("a.md", (⟨"old", 100, 0⟩ : CacheEntry String)),
        ("aXmd", ⟨"other", 100, 0⟩)] "aXmd" = true
    ∧ (cmWriteFile
        ⟨⟨[("a.md", ⟨"old", 100, 0⟩), ("aXmd", ⟨"other", 100, 0⟩)], 50, 600⟩,
         ⟨fun _ => none, fun _ => false, fun _ => false⟩⟩
        "a.md" "new").2 = Except.ok ()
    ∧ mapHas ((cmWriteFile
        ⟨⟨[("a.md", ⟨"old", 100, 0⟩), ("aXmd", ⟨"other", 100, 0⟩)], 50, 600⟩,
         ⟨fun _ => none, fun _ => false, fun _ => false⟩⟩
        "a.md" "new").1).fileCache.cache "aXmd" = false :=
  ⟨by decide, rfl, by decide⟩

/-- Claim C2 (amended): for a key containing no regular-expression
metacharacter other than the dot, on a successful underlying write,
write(k, c) first writes and then invalidates every cache entry whose key
matches the unescaped anchored pattern built from k, in which a dot
matches any single character; the entry for k itself matches such a
pattern, so it is removed and a subsequent read(k) returns c, and when no
other key matches the pattern exactly the entry for k is removed. The
regexSafeChar hypothesis confines the statement to the paths on which
dotTest is an exact model of the RegExp the code builds. -/
theorem C2_write_then_read (st : CMState) (fp content : String) (now : Int)
    (_hsafe : fp.toList.all regexSafeChar = true)
    (hok : st.fs.writeFails fp = false) :
    (cmWriteFile st fp content).2 = Except.ok ()
    ∧ ((cmWriteFile st fp content).1).fileCache.cache
        = st.fileCache.cache.filter (fun q => !(exactKeyPattern fp q.1))
    ∧ ((cmWriteFile st fp content).1).fs.contents fp = some content
    ∧ (cmReadFile (cmWriteFile st fp content).1 fp now).2
        = Except.ok content := by
  have hw : writeFile st.fs fp content
      = Except.ok { st.fs with
          contents := fun p => if p = fp then some content
            else st.fs.contents p } := by
    unfold writeFile
    rw [if_neg (by simp [hok])]
  have hstep : cmWriteFile st fp content
      = ({ fileCache :=
            (st.fileCache.invalidatePattern (exactKeyPattern fp)).1,
           fs := { st.fs with
             contents := fun p => if p = fp then some content
               else st.fs.contents p } }, Except.ok ()) := by
    unfold cmWriteFile
    rw [hw]
  have hcachefp : mapFind
      ((st.fileCache.invalidatePattern (exactKeyPattern fp)).1).cache fp
      = none :=
    mapFind_filter_none st.fileCache.cache (exactKeyPattern fp) fp
      (exactKeyPattern_self fp)
  refine ⟨by rw [hstep], by rw [hstep]; rfl, ?_, ?_⟩
  · rw [hstep]
    simp
  · have hget : (((st.fileCache.invalidatePattern
        (exactKeyPattern fp)).1).get fp now).2 = none := by
      unfold SmartCache.get
      rw [hcachefp]
    have hcont : ({ st.fs with
        contents := fun p => if p = fp then some content
          else st.fs.contents p } : FS).contents fp = some content := by
      simp
    rw [hstep]
    rw [cmReadFile_eq]
    dsimp only
    rw [hget]
    unfold readFile
    rw [hcont]

/-- Witness for C2_write_then_read: one stale cached value for the key f,
a write of B to f, then a read of f returning B. -/
theorem C2_write_then_read_witness :
    (cmWriteFile ⟨⟨[("f", ⟨"A", 9, 0⟩)], 50, 600⟩,
        ⟨fun _ => none, fun _ => false, fun _ => false⟩⟩ "f" "B").2
      = Except.ok ()
    ∧ (cmReadFile (cmWriteFile ⟨⟨[("f", ⟨"A", 9, 0⟩)], 50, 600⟩,
        ⟨fun _ => none, fun _ => false, fun _ => false⟩⟩ "f" "B").1 "f" 0).2
      = Except.ok "B" :=
  ⟨(C2_write_then_read
      ⟨⟨[("f", ⟨"A", 9, 0⟩)], 50, 600⟩,
       ⟨fun _ => none, fun _ => false, fun _ => false⟩⟩ "f" "B" 0
      (by decide) rfl).1,
   (C2_write_then_read
      ⟨⟨[("f", ⟨"A", 9, 0⟩)], 50, 600⟩,
       ⟨fun _ => none, fun _ => false, fun _ => false⟩⟩ "f" "B" 0
      (by decide) rfl).2.2.2⟩
